import Mathlib

/-!
Shallow embedding of the fractal-network core in `fractal.py`: the
column/depth schedule built by `FractalBlock.__init__`, the drop-path mask of
`FractalBlock.drop_mask`, the path join of `FractalBlock.join`, the depth loop
of `FractalBlock.forward`, and the per-pass global-column sampling of
`FractalNet.forward`.

Leaf transforms (`ConvBlock`, pooling, flatten, the linear head) are external
collaborators and are modelled as abstract functions.  Random draws are
modelled as explicit streams of outcomes passed into the definitions.  Float
arithmetic is modelled exactly over the rationals.
-/

/- ---------------------------------------------------------------------------
Column/depth schedule (`FractalBlock.__init__`, fractal.py lines 72-90).
The inner loop appends, for depth `i < max_depth`, a present module when
`(i+1) % dist == 0` and an absent one otherwise; `dist` starts at
`max_depth = 2^(n_columns-1)` and is halved (`dist //= 2`) after each column.
`self.count[i]` accumulates one unit per present module at depth `i`.
--------------------------------------------------------------------------- -/

/-- One column's presence schedule: entry `i` is `(i+1) % dist == 0`,
mirroring the inner depth loop of `FractalBlock.__init__`. -/
def columnSchedule (dist md : Nat) : List Bool :=
  (List.range md).map (fun i => (i + 1) % dist == 0)

/-- Builds `k` columns, halving `dist` after each one (`dist //= 2`). -/
def buildColumnsAux : Nat → Nat → Nat → List (List Bool)
  | 0, _, _ => []
  | k + 1, dist, md => columnSchedule dist md :: buildColumnsAux k (dist / 2) md

/-- The presence table of a block with `n` columns: `max_depth = 2^(n-1)` and
`dist` starts at `max_depth`. -/
def buildColumns (n : Nat) : List (List Bool) :=
  buildColumnsAux n (2 ^ (n - 1)) (2 ^ (n - 1))

/-- `count[i]`: how many columns hold a present module at depth `i`
(the `self.count[i] += 1` accumulation of the construction loops). -/
def countTable (n : Nat) : List Nat :=
  (List.range (2 ^ (n - 1))).map
    (fun i => (buildColumns n).countP (fun col => col.getD i false))

/-- Whether column `c` of an `n`-column block holds a present transform at
depth `i`. -/
def colPresent (n c i : Nat) : Bool :=
  ((buildColumns n).getD c []).getD i false

/-- Claim C3 (counterexample): the per-depth active-column count table built
at construction for `n_columns = 3` is `[1, 2, 1, 3]`, not `[4, 2, 1]`. -/
theorem countTable_three_ne : countTable 3 ≠ [4, 2, 1] := by decide

/-- Claim C3 (amended): for `n_columns = 3` the construction computes
`count = [1, 2, 1, 3]` over the `max_depth = 4` depth levels; the schedule has
column 2 active at all 4 depths, column 1 active at depths 1 and 3 only, and
column 0 active at depth 3 only (so the per-column activity totals, listed for
columns 2, 1, 0, are 4, 2, 1). -/
theorem countTable_three :
    countTable 3 = [1, 2, 1, 3]
  ∧ (∀ i < 4, colPresent 3 2 i = true)
  ∧ (∀ i < 4, (colPresent 3 1 i = true ↔ i = 1 ∨ i = 3))
  ∧ (∀ i < 4, (colPresent 3 0 i = true ↔ i = 3)) := by decide

/-- Claim C3 (witness for the amended theorem's bounded quantifiers). -/
theorem countTable_three_witness :
    countTable 3 = [1, 2, 1, 3] ∧ colPresent 3 2 0 = true
  ∧ (colPresent 3 1 1 = true ↔ 1 = 1 ∨ 1 = 3) :=
  ⟨countTable_three.1, countTable_three.2.1 0 (by decide),
    countTable_three.2.2.1 1 (by decide)⟩

/- ---------------------------------------------------------------------------
Drop mask (`FractalBlock.drop_mask`, fractal.py lines 92-123).
`global_cols` is the numpy vector of chosen global columns (length `GB`);
the entry at row `r`, global sample `k` is set to `1` exactly when the
translated index `global_cols[k] - (n_columns - n_cols)` is non-negative and
equal to `r` (numpy: fancy-index assignment over `np.where(gdrop_cols >= 0)`;
a translated index at or above `n_cols` would be a numpy index error and
cannot occur while `global_cols` entries are below `n_columns`).  The local
sub-mask takes its Bernoulli outcomes from the explicit stream `draw` and the
`np.random.randint(0, n_cols, ...)` resurrection rows from the stream `res`.
--------------------------------------------------------------------------- -/

/-- One entry of the global sub-mask: row `r`, chosen global column `g`. -/
def gdropEntry (n_columns n_cols g r : Nat) : Nat :=
  if (g : Int) - ((n_columns : Int) - (n_cols : Int)) = (r : Int) then 1 else 0

/-- Global sub-mask `[n_cols, GB]` (the `gdrop_mask` array). -/
def gdropMask (n_columns n_cols : Nat) (global_cols : List Nat) : List (List Nat) :=
  (List.range n_cols).map (fun r => global_cols.map (fun g => gdropEntry n_columns n_cols g r))

/-- Raw local Bernoulli outcome as a 0/1 weight. -/
def lraw (draw : Nat → Nat → Bool) (r j : Nat) : Nat := if draw r j then 1 else 0

/-- Per-sample alive count of the raw local mask (`ldrop_mask.sum(axis=0)`). -/
def lAlive (n_cols : Nat) (draw : Nat → Nat → Bool) (j : Nat) : Nat :=
  ((List.range n_cols).map (fun r => lraw draw r j)).sum

/-- Local sub-mask `[n_cols, LB]` after resurrection: a sample whose raw draws
are all dead gets row `res j` forced alive. -/
def ldropMask (n_cols LB : Nat) (draw : Nat → Nat → Bool) (res : Nat → Nat) :
    List (List Nat) :=
  (List.range n_cols).map (fun r => (List.range LB).map (fun j =>
    if lAlive n_cols draw j = 0 ∧ res j = r then 1 else lraw draw r j))

/-- `FractalBlock.drop_mask`: the global and local sub-masks concatenated
along the sample axis (`np.concatenate(..., axis=1)`). -/
def drop_mask (n_columns n_cols B : Nat) (global_cols : List Nat)
    (draw : Nat → Nat → Bool) (res : Nat → Nat) : List (List Nat) :=
  List.zipWith (· ++ ·) (gdropMask n_columns n_cols global_cols)
    (ldropMask n_cols (B - global_cols.length) draw res)

/-- Sum of mask column `j` (the per-sample alive count over rows). -/
def maskColSum (m : List (List Nat)) (j : Nat) : Nat :=
  (m.map (fun row => row.getD j 0)).sum

/-- `zipWith` of two maps over the same base list is a single map. -/
theorem zipWith_map_same {α β γ δ : Type} (k : β → γ → δ) (f : α → β) (g : α → γ) :
    ∀ l : List α, List.zipWith k (l.map f) (l.map g) = l.map (fun x => k (f x) (g x))
  | [] => rfl
  | a :: l => by simp [List.zipWith, zipWith_map_same k f g l]

/-- `drop_mask` written as one map over the row indices. -/
theorem drop_mask_eq_map (n_columns n_cols B : Nat) (gc : List Nat)
    (draw : Nat → Nat → Bool) (res : Nat → Nat) :
    drop_mask n_columns n_cols B gc draw res
      = (List.range n_cols).map (fun r =>
          gc.map (fun g => gdropEntry n_columns n_cols g r)
          ++ (List.range (B - gc.length)).map (fun j =>
               if lAlive n_cols draw j = 0 ∧ res j = r then 1 else lraw draw r j)) := by
  unfold drop_mask gdropMask ldropMask
  exact zipWith_map_same _ _ _ _

/-- `getD` of a map over `List.range`. -/
theorem getD_map_range {α : Type} :
    ∀ (m : Nat) (f : Nat → α) (t : Nat) (d : α),
      ((List.range m).map f).getD t d = if t < m then f t else d
  | 0, f, t, d => by simp
  | m + 1, f, t, d => by
      rw [List.range_succ_eq_map]
      cases t with
      | zero => simp
      | succ t' =>
          simp only [List.map_cons, List.map_map, List.getD_cons_succ]
          rw [getD_map_range m (f ∘ Nat.succ) t' d]
          simp only [Function.comp]
          by_cases h : t' < m <;>
            simp [h, Nat.succ_lt_succ_iff]

/-- Claim C4: for `B ≥ 1`, `global_cols` of length `GB ≤ B` with entries in
`[0, n_columns)`, `1 ≤ n_cols ≤ n_columns` and any Bernoulli outcomes (hence
any `p_local_drop` in `[0,1]`), `drop_mask` returns a `[n_cols, B]` matrix of
0/1 entries whose columns at the local positions `GB..B-1` each sum to at
least 1; the final conjunct exhibits a global column that sums to 0. -/
theorem drop_mask_shape_binary_resurrect
    (n_columns n_cols B : Nat) (gc : List Nat) (draw : Nat → Nat → Bool) (res : Nat → Nat)
    (hB : 1 ≤ B) (hc1 : 1 ≤ n_cols) (hc2 : n_cols ≤ n_columns) (hGB : gc.length ≤ B)
    (hg : ∀ g ∈ gc, g < n_columns) (hres : ∀ j, res j < n_cols) :
    (drop_mask n_columns n_cols B gc draw res).length = n_cols
  ∧ (∀ row ∈ drop_mask n_columns n_cols B gc draw res, row.length = B)
  ∧ (∀ row ∈ drop_mask n_columns n_cols B gc draw res, ∀ x ∈ row, x = 0 ∨ x = 1)
  ∧ (∀ j, gc.length ≤ j → j < B →
       1 ≤ maskColSum (drop_mask n_columns n_cols B gc draw res) j)
  ∧ maskColSum (drop_mask 2 1 2 [0] (fun _ _ => true) (fun _ => 0)) 0 = 0 := by
  rw [drop_mask_eq_map]
  refine ⟨by simp, ?_, ?_, ?_, by decide⟩
  · intro row hrow
    rcases List.mem_map.mp hrow with ⟨r, hr, rfl⟩
    simp
    omega
  · intro row hrow x hx
    rcases List.mem_map.mp hrow with ⟨r, hr, rfl⟩
    rcases List.mem_append.mp hx with hxg | hxl
    · rcases List.mem_map.mp hxg with ⟨g, hgm, rfl⟩
      unfold gdropEntry
      split <;> simp
    · rcases List.mem_map.mp hxl with ⟨jj, hjm, rfl⟩
      unfold lraw
      split
      · simp
      · split <;> simp
  · intro j hj1 hj2
    unfold maskColSum
    rw [List.map_map]
    rw [List.map_congr_left (g := fun r =>
        if lAlive n_cols draw (j - gc.length) = 0 ∧ res (j - gc.length) = r then 1
        else lraw draw r (j - gc.length)) ?_]
    · by_cases hdead : lAlive n_cols draw (j - gc.length) = 0
      · have hmem : (1 : Nat) ∈ (List.range n_cols).map (fun r =>
            if lAlive n_cols draw (j - gc.length) = 0 ∧ res (j - gc.length) = r then 1
            else lraw draw r (j - gc.length)) :=
          List.mem_map.mpr ⟨res (j - gc.length), List.mem_range.mpr (hres _), by
            simp [hdead]⟩
        exact List.single_le_sum (fun x _ => Nat.zero_le x) 1 hmem
      · rw [List.map_congr_left
            (g := fun r => lraw draw r (j - gc.length)) (fun r _ => by simp [hdead])]
        exact Nat.one_le_iff_ne_zero.mpr hdead
    · intro r _
      show (gc.map (fun g => gdropEntry n_columns n_cols g r)
          ++ (List.range (B - gc.length)).map (fun jj =>
               if lAlive n_cols draw jj = 0 ∧ res jj = r then 1
               else lraw draw r jj)).getD j 0 = _
      rw [List.getD_append_right _ _ _ _ (by simpa using hj1)]
      rw [List.length_map, getD_map_range, if_pos (by omega)]

/-- Claim C4 (witness): the resurrection bound at a concrete all-dead local
draw with `n_columns = n_cols = 2`, `B = 2`, `global_cols = [1]`. -/
theorem drop_mask_shape_binary_resurrect_witness :
    1 ≤ maskColSum (drop_mask 2 2 2 [1] (fun _ _ => false) (fun _ => 1)) 1 :=
  (drop_mask_shape_binary_resurrect 2 2 2 [1] (fun _ _ => false) (fun _ => 1)
    (by decide) (by decide) (by decide) (by decide) (by decide)
    (fun _ => one_lt_two)).2.2.2.1 1 (by decide) (by decide)

/-- Sum of a one-hot indicator over an index range. -/
theorem sum_indicator_range :
    ∀ m g : Nat,
      ((List.range m).map (fun r => if g = r then (1 : Nat) else 0)).sum
        = if g < m then 1 else 0
  | 0, g => by simp
  | m + 1, g => by
      rw [List.range_succ, List.map_append, List.sum_append, sum_indicator_range m g]
      rcases Nat.lt_trichotomy g m with h | h | h
      · simp [h, Nat.ne_of_lt h, Nat.lt_succ_of_lt h]
      · subst h
        simp
      · have h1 : ¬ g < m := by omega
        have h2 : g ≠ m := by omega
        have h3 : ¬ g < m + 1 := by omega
        simp [h1, h2, h3]

/-- Claim C10: at a full-width merge point (`n_cols = n_columns`) every global
sample's translated index `g - (n_columns - n_cols)` lies in `[0, n_cols)`,
and each of the first `GB` mask columns sums to exactly 1 (one-hot). -/
theorem drop_mask_global_onehot
    (n_columns B : Nat) (gc : List Nat) (draw : Nat → Nat → Bool) (res : Nat → Nat)
    (hg : ∀ g ∈ gc, g < n_columns) (hGB : gc.length ≤ B) :
    (∀ g ∈ gc, (0 : Int) ≤ (g : Int) - ((n_columns : Int) - (n_columns : Int))
        ∧ (g : Int) - ((n_columns : Int) - (n_columns : Int)) < (n_columns : Int))
  ∧ (∀ k, k < gc.length →
        maskColSum (drop_mask n_columns n_columns B gc draw res) k = 1) := by
  constructor
  · intro g hgm
    have := hg g hgm
    constructor <;> omega
  · intro k hk
    rw [drop_mask_eq_map]
    unfold maskColSum
    rw [List.map_map]
    have hgk : gc.getD k 0 < n_columns := by
      rw [List.getD_eq_getElem _ _ hk]
      exact hg _ (List.getElem_mem _)
    rw [List.map_congr_left (g := fun r => if gc.getD k 0 = r then 1 else 0) ?_]
    · rw [sum_indicator_range, if_pos hgk]
    · intro r _
      show (gc.map (fun g => gdropEntry n_columns n_columns g r) ++ _).getD k 0 = _
      rw [List.getD_append _ _ _ _ (by simpa using hk)]
      rw [List.getD_eq_getElem _ _ (by simpa using hk), List.getElem_map]
      have hiff : ((gc[k] : Int) - ((n_columns : Int) - (n_columns : Int)) = (r : Int))
          ↔ gc.getD k 0 = r := by
        rw [List.getD_eq_getElem _ _ hk]
        constructor <;> intro h <;> omega
      simp only [gdropEntry, hiff]

/-- Claim C10 (witness): a concrete full-width merge point. -/
theorem drop_mask_global_onehot_witness :
    maskColSum (drop_mask 2 2 2 [1] (fun _ _ => false) (fun _ => 0)) 0 = 1 :=
  (drop_mask_global_onehot 2 2 [1] (fun _ _ => false) (fun _ => 0)
    (by decide) (by decide)).2 0 (by decide)

/- ---------------------------------------------------------------------------
Path join (`FractalBlock.join`, fractal.py lines 125-144).
A tensor is modelled pointwise: sample index × element index → value, with
float arithmetic taken exactly over `ℚ`.  The stacked elementwise product
`(out * masks)` summed over the path axis becomes `maskedSum`; the per-sample
alive count `masks.sum(dim=0)` is `maskColSum`; the `n_alive[n_alive == 0] = 1`
clamp becomes the `if` in the denominator.  The batch size `B` (in the source
`outs[0].size(0)`) is passed explicitly.
--------------------------------------------------------------------------- -/

/-- A batched tensor, viewed pointwise: sample index × element index → value. -/
abbrev Tensor := Nat → Nat → ℚ

/-- The masked numerator `(out * masks).sum(dim=0)` at sample `b`, element `e`. -/
def maskedSum (outs : List Tensor) (mask : List (List Nat)) (b e : Nat) : ℚ :=
  (List.zipWith (fun t row => ((row.getD b 0 : Nat) : ℚ) * t b e) outs mask).sum

/-- Training-mode branch of `FractalBlock.join`: weighted sum over paths
divided by the per-sample alive count, zero counts clamped to 1. -/
def joinTrain (outs : List Tensor) (mask : List (List Nat)) : Tensor :=
  fun b e =>
    maskedSum outs mask b e /
      (if maskColSum mask b = 0 then 1 else (maskColSum mask b : ℚ))

/-- Inference-mode branch of `FractalBlock.join`: unweighted mean over paths
(`out.mean(dim=0)`). -/
def joinEval (outs : List Tensor) : Tensor :=
  fun b e => (outs.map (fun t => t b e)).sum / (outs.length : ℚ)

/-- `FractalBlock.join`: dispatch on training mode; in training the mask is
produced by `drop_mask` from the explicit random streams. -/
def join (training : Bool) (n_columns B : Nat) (draw : Nat → Nat → Bool)
    (res : Nat → Nat) (global_cols : List Nat) (outs : List Tensor) : Tensor :=
  if training then
    joinTrain outs (drop_mask n_columns outs.length B global_cols draw res)
  else
    joinEval outs

/-- A mask whose column `b` is all-zero gives a zero masked numerator. -/
theorem maskedSum_zero (b e : Nat) :
    ∀ (outs : List Tensor) (mask : List (List Nat)),
      (∀ q, q < mask.length → (mask.getD q []).getD b 0 = 0) →
      maskedSum outs mask b e = 0
  | [], mask, _ => by simp [maskedSum]
  | t :: outs, [], _ => by simp [maskedSum]
  | t :: outs, row :: mask, h => by
      have h0 : row.getD b 0 = 0 := h 0 (Nat.succ_pos _)
      have ht : maskedSum outs mask b e = 0 :=
        maskedSum_zero b e outs mask (fun q hq => h (q + 1) (Nat.succ_lt_succ hq))
      simp only [maskedSum, List.zipWith_cons_cons, List.sum_cons] at *
      rw [h0, ht]
      simp

/-- A mask whose column `b` is all-zero has alive count zero there. -/
theorem maskColSum_zero (b : Nat) :
    ∀ mask : List (List Nat),
      (∀ q, q < mask.length → (mask.getD q []).getD b 0 = 0) →
      maskColSum mask b = 0
  | [], _ => rfl
  | row :: mask, h => by
      have h0 : row.getD b 0 = 0 := h 0 (Nat.succ_pos _)
      have ht : maskColSum mask b = 0 :=
        maskColSum_zero b mask (fun q hq => h (q + 1) (Nat.succ_lt_succ hq))
      simp only [maskColSum, List.map_cons, List.sum_cons] at *
      rw [h0, ht]

/-- A mask column that is one-hot at path `p` makes the masked numerator the
`p`-th path's value. -/
theorem maskedSum_onehot (b e : Nat) :
    ∀ (outs : List Tensor) (mask : List (List Nat)) (p : Nat),
      p < outs.length → p < mask.length →
      (mask.getD p []).getD b 0 = 1 →
      (∀ q, q < mask.length → q ≠ p → (mask.getD q []).getD b 0 = 0) →
      maskedSum outs mask b e = (outs.getD p (fun _ _ => 0)) b e
  | [], mask, p, hp, _, _, _ => absurd hp (Nat.not_lt_zero p)
  | t :: outs, [], p, _, hp, _, _ => absurd hp (Nat.not_lt_zero p)
  | t :: outs, row :: mask, 0, _, _, h1, h0 => by
      have hz : maskedSum outs mask b e = 0 :=
        maskedSum_zero b e outs mask
          (fun q hq => h0 (q + 1) (Nat.succ_lt_succ hq) (Nat.succ_ne_zero q))
      simp only [maskedSum, List.zipWith_cons_cons, List.sum_cons] at *
      simp only [List.getD_cons_zero] at h1 ⊢
      rw [h1, hz]
      simp
  | t :: outs, row :: mask, p + 1, hp, hp', h1, h0 => by
      have hhead : row.getD b 0 = 0 :=
        h0 0 (Nat.succ_pos _) (Nat.succ_ne_zero p).symm
      have ht := maskedSum_onehot b e outs mask p
        (Nat.lt_of_succ_lt_succ hp) (Nat.lt_of_succ_lt_succ hp')
        (by simpa using h1)
        (fun q hq hne => h0 (q + 1) (Nat.succ_lt_succ hq)
          (fun hcon => hne (Nat.succ_injective hcon)))
      simp only [maskedSum, List.zipWith_cons_cons, List.sum_cons] at *
      rw [hhead, ht]
      simp
  termination_by outs => outs.length

/-- A mask column that is one-hot at path `p` has alive count exactly 1. -/
theorem maskColSum_onehot (b : Nat) :
    ∀ (mask : List (List Nat)) (p : Nat),
      p < mask.length →
      (mask.getD p []).getD b 0 = 1 →
      (∀ q, q < mask.length → q ≠ p → (mask.getD q []).getD b 0 = 0) →
      maskColSum mask b = 1
  | [], p, hp, _, _ => absurd hp (Nat.not_lt_zero p)
  | row :: mask, 0, _, h1, h0 => by
      have hz : maskColSum mask b = 0 :=
        maskColSum_zero b mask
          (fun q hq => h0 (q + 1) (Nat.succ_lt_succ hq) (Nat.succ_ne_zero q))
      simp only [maskColSum, List.map_cons, List.sum_cons] at *
      simp only [List.getD_cons_zero] at h1
      rw [h1, hz]
  | row :: mask, p + 1, hp, h1, h0 => by
      have hhead : row.getD b 0 = 0 :=
        h0 0 (Nat.succ_pos _) (Nat.succ_ne_zero p).symm
      have ht := maskColSum_onehot b mask p (Nat.lt_of_succ_lt_succ hp)
        (by simpa using h1)
        (fun q hq hne => h0 (q + 1) (Nat.succ_lt_succ hq)
          (fun hcon => hne (Nat.succ_injective hcon)))
      simp only [maskColSum, List.map_cons, List.sum_cons] at *
      rw [hhead, ht]

/-- Claim C5: the training branch of `FractalBlock.join` is the drop-masked
weighted sum with the zero alive count clamped to 1, so a sample whose mask
column is all-zero yields exactly 0, and a sample whose mask column is one-hot
at path `p` yields exactly path `p`'s value. -/
theorem joinTrain_dead_and_single
    (outs : List Tensor) (mask : List (List Nat)) (b e : Nat) :
    (∀ n_columns B draw res gcols,
        join true n_columns B draw res gcols outs
          = joinTrain outs (drop_mask n_columns outs.length B gcols draw res))
  ∧ ((∀ q, q < mask.length → (mask.getD q []).getD b 0 = 0) →
        joinTrain outs mask b e = 0)
  ∧ (∀ p, p < outs.length → p < mask.length →
        (mask.getD p []).getD b 0 = 1 →
        (∀ q, q < mask.length → q ≠ p → (mask.getD q []).getD b 0 = 0) →
        joinTrain outs mask b e = (outs.getD p (fun _ _ => 0)) b e) := by
  refine ⟨fun _ _ _ _ _ => rfl, ?_, ?_⟩
  · intro h
    unfold joinTrain
    rw [maskedSum_zero b e outs mask h, maskColSum_zero b mask h]
    simp
  · intro p hp hp' h1 h0
    unfold joinTrain
    rw [maskedSum_onehot b e outs mask p hp hp' h1 h0,
      maskColSum_onehot b mask p hp' h1 h0]
    simp

/-- Claim C5 (witness): concrete dead and one-hot mask columns. -/
theorem joinTrain_dead_and_single_witness :
    joinTrain [fun _ _ => (5 : ℚ)] [[0]] 0 0 = 0
  ∧ joinTrain [fun _ _ => (5 : ℚ)] [[1]] 0 0 = 5 :=
  ⟨(joinTrain_dead_and_single [fun _ _ => (5 : ℚ)] [[0]] 0 0).2.1
      (fun q hq => by
        have hq0 : q = 0 := Nat.lt_one_iff.mp hq
        subst hq0
        rfl),
    (joinTrain_dead_and_single [fun _ _ => (5 : ℚ)] [[1]] 0 0).2.2 0
      (by decide) (by decide) rfl
      (fun q hq hne => absurd (Nat.lt_one_iff.mp hq) hne)⟩

/-- Claim C6: in inference mode `FractalBlock.join` ignores the global columns
and the random streams and returns the unweighted elementwise mean; on three
paths it is exactly `(t1 + t2 + t3) / 3`. -/
theorem join_eval_mean :
    (∀ n_columns B draw res gcols outs,
        join false n_columns B draw res gcols outs = joinEval outs)
  ∧ (∀ t1 t2 t3 : Tensor, ∀ b e : Nat,
        joinEval [t1, t2, t3] b e = (t1 b e + t2 b e + t3 b e) / 3) := by
  refine ⟨fun _ _ _ _ _ _ => rfl, ?_⟩
  intro t1 t2 t3 b e
  simp [joinEval]
  ring

/- ---------------------------------------------------------------------------
Block forward (`FractalBlock.forward`, fractal.py lines 146-167).
The depth loop is generic in the element type, the leaf-transform table
`F column depth`, and the per-depth join `J`; `FractalNet` instantiates `F`
with the block's `ConvBlock`s and `J` with `FractalBlock.join`.  The running
outputs `outs` (a Python list of length `n_columns`) are modelled as a
function from column index to value; `st` is the loop's start column and the
write-back loop `for c in range(st, n_columns): outs[c] = joined` becomes the
`if st ≤ c ∧ c < n` update.
--------------------------------------------------------------------------- -/

/-- The start column of depth `i`: `n_columns - count[i]`, overridden to
`n_columns - 1` when `deepest` is set. -/
def activeStart (n : Nat) (count : Nat → Nat) (deepest : Bool) (i : Nat) : Nat :=
  if deepest then n - 1 else n - count i

/-- `cur_outs`: the transformed outputs of the active columns at depth `i`. -/
def activeOuts {α : Type} (n st : Nat) (F : Nat → Nat → α → α) (i : Nat)
    (outs : Nat → α) : List α :=
  (List.range' st (n - st)).map (fun c => F c i (outs c))

/-- One iteration of the depth loop: apply the active columns' transforms,
join them, and write the joined value back to columns `st ≤ c < n`. -/
def depthStep {α : Type} (n : Nat) (count : Nat → Nat) (F : Nat → Nat → α → α)
    (J : Nat → List α → α) (deepest : Bool) (i : Nat) (outs : Nat → α) : Nat → α :=
  let st := activeStart n count deepest i
  let joined := J i (activeOuts n st F i outs)
  fun c => if st ≤ c ∧ c < n then joined else outs c

/-- The first `k` iterations of the depth loop, in increasing depth order. -/
def runDepths {α : Type} (n : Nat) (count : Nat → Nat) (F : Nat → Nat → α → α)
    (J : Nat → List α → α) (deepest : Bool) : Nat → (Nat → α) → (Nat → α)
  | 0, outs => outs
  | k + 1, outs => depthStep n count F J deepest k (runDepths n count F J deepest k outs)

/-- The optional channel-doubling pre-transform
(`out = self.doubler(x) if self.doubler else x`). -/
def applyDoubler {α : Type} (D : Option (α → α)) (x : α) : α :=
  match D with
  | some d => d x
  | none => x

/-- `FractalBlock.forward`: seed every column with the (optionally doubled)
input, run all `max_depth` depth levels, and return `outs[0]`. -/
def blockForward {α : Type} (n : Nat) (count : Nat → Nat) (F : Nat → Nat → α → α)
    (J : Nat → List α → α) (D : Option (α → α)) (max_depth : Nat) (deepest : Bool)
    (x : α) : α :=
  runDepths n count F J deepest max_depth (fun _ => applyDoubler D x) 0

/-- Claim C1 (code evaluation at the failing configuration): with
`deepest = true` and `n_columns ≥ 2` the depth loop only ever writes columns
`n_columns - 1 ≤ c`, yet `forward` returns `outs[0]`, so the block returns its
(optionally doubled) input unchanged — for every depth count, every transform
table, and every join — instead of the deepest column's chain output. -/
theorem blockForward_deepest_returns_input {α : Type} (n : Nat) (count : Nat → Nat)
    (F : Nat → Nat → α → α) (J : Nat → List α → α) (D : Option (α → α))
    (max_depth : Nat) (x : α) (hn : 2 ≤ n) :
    blockForward n count F J D max_depth true x = applyDoubler D x := by
  have key : ∀ (k : Nat) (outs : Nat → α),
      runDepths n count F J true k outs 0 = outs 0 := by
    intro k
    induction k with
    | zero => intro outs; rfl
    | succ k ih =>
        intro outs
        have hst : activeStart n count true k = n - 1 := rfl
        have hne : ¬ (activeStart n count true k ≤ 0 ∧ 0 < n) := by
          rw [hst]
          omega
        show (if activeStart n count true k ≤ 0 ∧ 0 < n
            then J k (activeOuts n (activeStart n count true k) F k
              (runDepths n count F J true k outs))
            else runDepths n count F J true k outs 0) = outs 0
        rw [if_neg hne]
        exact ih outs
  exact key max_depth _

/-- Claim C1 (witness): at `n_columns = 2` with transforms `v ↦ v + 1` and a
summing join, the `deepest` pass returns the input `0` untouched. -/
theorem blockForward_deepest_returns_input_witness :
    2 ≤ 2
  ∧ blockForward 2 (fun i => (countTable 2).getD i 0) (fun _ _ (v : ℚ) => v + 1)
      (fun _ l => l.sum) none 2 true 0 = 0 :=
  ⟨le_refl 2,
    blockForward_deepest_returns_input 2 (fun i => (countTable 2).getD i 0)
      (fun _ _ (v : ℚ) => v + 1) (fun _ l => l.sum) none 2 0 (le_refl 2)⟩

/-- Claim C2 (counterexample): with the real two-column schedule
(`count = [1, 2]`), after depth level 0 the inactive column 0 still holds the
block input `0` while the active column 1 holds the joined value `1`: the
joined result is not broadcast to the full column range `[0, n_columns)`. -/
theorem depthStep_not_broadcast_all :
    runDepths 2 (fun i => (countTable 2).getD i 0) (fun _ _ (v : ℚ) => v + 1)
      (fun _ l => l.sum) false 1 (fun _ => 0) 0 = 0
  ∧ runDepths 2 (fun i => (countTable 2).getD i 0) (fun _ _ (v : ℚ) => v + 1)
      (fun _ l => l.sum) false 1 (fun _ => 0) 1 = 1
  ∧ runDepths 2 (fun i => (countTable 2).getD i 0) (fun _ _ (v : ℚ) => v + 1)
      (fun _ l => l.sum) false 1 (fun _ => 0) 0
    ≠ runDepths 2 (fun i => (countTable 2).getD i 0) (fun _ _ (v : ℚ) => v + 1)
      (fun _ l => l.sum) false 1 (fun _ => 0) 1 := by
  have hct : countTable 2 = [1, 2] := by decide
  refine ⟨?_, ?_, ?_⟩ <;>
    norm_num [runDepths, depthStep, activeStart, activeOuts, hct, List.range']

/-- Claim C2 (amended): at every depth level `i` of a non-`deepest` forward
pass, the joined result of the active paths is written back to exactly the
active column range `[n_columns - count[i], n_columns)`; columns below
`n_columns - count[i]` keep their previous running output unchanged. -/
theorem depthStep_assigns_active {α : Type} (n : Nat) (count : Nat → Nat)
    (F : Nat → Nat → α → α) (J : Nat → List α → α) (i : Nat) (outs : Nat → α)
    (c : Nat) :
    (c < n - count i → depthStep n count F J false i outs c = outs c)
  ∧ (n - count i ≤ c → c < n →
      depthStep n count F J false i outs c
        = J i (activeOuts n (n - count i) F i outs)) := by
  constructor
  · intro h
    unfold depthStep activeStart
    simp only [Bool.false_eq_true, if_false]
    rw [if_neg (by omega)]
  · intro h1 h2
    unfold depthStep activeStart
    simp only [Bool.false_eq_true, if_false]
    rw [if_pos ⟨h1, h2⟩]

/-- Claim C2 (witness): the amended write-back rule at the concrete instance
of the counterexample. -/
theorem depthStep_assigns_active_witness :
    depthStep 2 (fun i => (countTable 2).getD i 0) (fun _ _ (v : ℚ) => v + 1)
      (fun _ l => l.sum) false 0 (fun _ => 0) 0 = 0
  ∧ depthStep 2 (fun i => (countTable 2).getD i 0) (fun _ _ (v : ℚ) => v + 1)
      (fun _ l => l.sum) false 0 (fun _ => 0) 1
      = (activeOuts 2 1 (fun _ _ (v : ℚ) => v + 1) 0 (fun _ => 0)).sum := by
  have hcnt : (countTable 2).getD 0 0 = 1 := by decide
  constructor
  · exact (depthStep_assigns_active 2 (fun i => (countTable 2).getD i 0)
      (fun _ _ (v : ℚ) => v + 1) (fun _ l => l.sum) 0 (fun _ => 0) 0).1
      (by decide)
  · have h := (depthStep_assigns_active 2 (fun i => (countTable 2).getD i 0)
      (fun _ _ (v : ℚ) => v + 1) (fun _ l => l.sum) 0 (fun _ => 0) 1).2
      (by decide) (by omega)
    have h2 : 2 - (countTable 2).getD 0 0 = 1 := by rw [hcnt]
    rw [h2] at h
    exact h

/- ---------------------------------------------------------------------------
Claim C7: the constructed presence table equals the closed-form divisibility
schedule, and at each depth the active columns form the rightmost contiguous
suffix of width `count[i]`.
--------------------------------------------------------------------------- -/

/-- The construction builds exactly `k` columns. -/
theorem buildColumnsAux_length :
    ∀ (k d md : Nat), (buildColumnsAux k d md).length = k
  | 0, _, _ => rfl
  | k + 1, d, md => by
      simp [buildColumnsAux, buildColumnsAux_length k (d / 2) md]

/-- Column `c` of the construction has divisor `d / 2^c`. -/
theorem buildColumnsAux_getD :
    ∀ (k d c md : Nat), c < k →
      (buildColumnsAux k d md).getD c [] = columnSchedule (d / 2 ^ c) md
  | 0, _, c, _, hc => absurd hc (Nat.not_lt_zero c)
  | k + 1, d, 0, md, _ => by
      simp [buildColumnsAux, Nat.pow_zero, Nat.div_one]
  | k + 1, d, c + 1, md, hc => by
      simp only [buildColumnsAux, List.getD_cons_succ]
      rw [buildColumnsAux_getD k (d / 2) c md (Nat.lt_of_succ_lt_succ hc)]
      congr 1
      rw [Nat.div_div_eq_div_mul, pow_succ, Nat.mul_comm]

/-- The presence of column `c` at depth `i` follows the closed-form rule
`(i+1) % 2^(n-1-c) == 0`. -/
theorem colPresent_formula (n c i : Nat) (hc : c < n) (hi : i < 2 ^ (n - 1)) :
    colPresent n c i = ((i + 1) % 2 ^ (n - 1 - c) == 0) := by
  unfold colPresent buildColumns
  rw [buildColumnsAux_getD n (2 ^ (n - 1)) c (2 ^ (n - 1)) hc]
  rw [Nat.pow_div (by omega) (by norm_num)]
  unfold columnSchedule
  rw [getD_map_range, if_pos hi]

/-- `countP` over a list equals `countP` of the index predicate over the
index range. -/
theorem countP_eq_range_countP {α : Type} (q : α → Bool) (d : α) :
    ∀ l : List α,
      l.countP q = (List.range l.length).countP (fun c => q (l.getD c d))
  | [] => rfl
  | a :: l => by
      rw [List.countP_cons, List.length_cons, List.range_succ_eq_map,
        List.countP_cons, List.countP_map]
      have : ((fun c => q ((a :: l).getD c d)) ∘ Nat.succ)
          = fun c => q (l.getD c d) := by
        funext c
        simp [Function.comp, List.getD_cons_succ]
      rw [this, ← countP_eq_range_countP q d l]
      simp [List.getD_cons_zero, Nat.add_comm]

/-- For an upward-closed predicate on `[0, n)`, membership is equivalent to
lying in the suffix of size `countP`. -/
theorem countP_monotone_suffix :
    ∀ (n : Nat) (p : Nat → Bool),
      (∀ a b, a ≤ b → b < n → p a = true → p b = true) →
      ∀ c, c < n → (p c = true ↔ n - (List.range n).countP p ≤ c)
  | 0, p, _, c, hc => absurd hc (Nat.not_lt_zero c)
  | n + 1, p, mono, c, hc => by
      have mono' : ∀ a b, a ≤ b → b < n → p a = true → p b = true :=
        fun a b hab hb => mono a b hab (by omega)
      rw [List.range_succ, List.countP_append]
      by_cases hp : p n = true
      · have hone : List.countP p [n] = 1 := by simp [List.countP_cons, hp]
        rw [hone]
        rcases Nat.lt_or_ge c n with h | h
        · rw [countP_monotone_suffix n p mono' c h]
          have hcount : (List.range n).countP p ≤ n := by
            calc (List.range n).countP p ≤ (List.range n).length := List.countP_le_length p
            _ = n := List.length_range n
          constructor <;> intro <;> omega
        · have hcn : c = n := by omega
          subst hcn
          simp only [hp, true_iff]
          omega
      · have hall : ∀ a, a < n + 1 → ¬ p a = true := by
          intro a ha hcon
          exact hp (mono a n (by omega) (by omega) hcon)
        have hz : (List.range n).countP p = 0 :=
          List.countP_eq_zero.mpr (fun a hma => hall a (by
            have := List.mem_range.mp hma
            omega))
        have hz1 : List.countP p [n] = 0 := by
          simp only [List.countP_cons, List.countP_nil]
          simp [hall n (by omega)]
        rw [hz, hz1]
        refine ⟨fun hcon => absurd hcon (hall c hc), fun hle => ?_⟩
        exfalso
        omega

/-- `count[i]` as a `countP` of the presence predicate over the columns. -/
theorem countTable_getD (n i : Nat) (hi : i < 2 ^ (n - 1)) :
    (countTable n).getD i 0 = (List.range n).countP (fun c => colPresent n c i) := by
  unfold countTable
  rw [getD_map_range, if_pos hi]
  rw [countP_eq_range_countP (fun col => col.getD i false) [] (buildColumns n)]
  have hlen : (buildColumns n).length = n := buildColumnsAux_length n _ _
  rw [hlen]
  rfl

/-- Claim C7: column `c` holds a present transform at depth `i` exactly when
`(i+1) mod 2^(n_columns-1-c) == 0`, and the active columns at depth `i` are
exactly the rightmost contiguous suffix `n_columns - count[i] ≤ c < n_columns`
of the construction-time count table. -/
theorem schedule_suffix (n c i : Nat) (hc : c < n) (hi : i < 2 ^ (n - 1)) :
    colPresent n c i = ((i + 1) % 2 ^ (n - 1 - c) == 0)
  ∧ (colPresent n c i = true ↔ n - (countTable n).getD i 0 ≤ c) := by
  refine ⟨colPresent_formula n c i hc hi, ?_⟩
  rw [countTable_getD n i hi]
  refine countP_monotone_suffix n (fun c => colPresent n c i) ?_ c hc
  intro a b hab hb hpa
  have hpa' : colPresent n a i = true := hpa
  rw [colPresent_formula n a i (by omega) hi] at hpa'
  show colPresent n b i = true
  rw [colPresent_formula n b i hb hi]
  have hdvda : 2 ^ (n - 1 - a) ∣ (i + 1) := by
    rw [Nat.dvd_iff_mod_eq_zero]
    simpa using hpa'
  have hdvdb : 2 ^ (n - 1 - b) ∣ (i + 1) :=
    dvd_trans (pow_dvd_pow 2 (by omega)) hdvda
  simpa using Nat.dvd_iff_mod_eq_zero.mp hdvdb

/-- Claim C7 (witness): `n_columns = 3`, column 1, depth 1. -/
theorem schedule_suffix_witness :
    (colPresent 3 1 1 = ((1 + 1) % 2 ^ (3 - 1 - 1) == 0))
  ∧ (colPresent 3 1 1 = true ↔ 3 - (countTable 3).getD 1 0 ≤ 1) :=
  schedule_suffix 3 1 1 (by decide) (by decide)

/- ---------------------------------------------------------------------------
Network forward (`FractalNet.forward`, fractal.py lines 241-254).
`GB = int(x.size(0) * self.gdrop_ratio)` is Python truncation of a float
product, modelled exactly over `ℚ`; `np.random.randint(0, n_columns, [GB])`
is modelled as the explicit raw stream `sample`, the `t`-th drawn vector
being `(List.range GB).map (sample t)`.  A layer is either a `FractalBlock`
(with its optional doubler and leaf-transform table) or a plain module
(pooling, flatten, linear head).  `netRun` additionally records the
global-column vector handed to each block, so the sampling policy is
observable; the local-drop streams of each block's joins are indexed by the
layer position `li` and the depth `i`.
--------------------------------------------------------------------------- -/

/-- Python `int()` applied to a rational: truncation toward zero. -/
def pyInt (q : ℚ) : Int := if 0 ≤ q then ⌊q⌋ else -⌊-q⌋

/-- `GB = int(x.size(0) * self.gdrop_ratio)` (as a count; numpy would reject
a negative size). -/
def netGB (B : Nat) (gfrac : ℚ) : Nat := (pyInt ((B : ℚ) * gfrac)).toNat

/-- One stage of `FractalNet.layers`: a fractal block or a plain module. -/
inductive Stage where
  | fblock (D : Option (Tensor → Tensor)) (F : Nat → Nat → Tensor → Tensor)
  | plain (f : Tensor → Tensor)

/-- Whether a stage is a fractal block (`isinstance(layer, FractalBlock)`). -/
def isFBlock : Stage → Bool
  | Stage.fblock _ _ => true
  | Stage.plain _ => false

/-- Number of fractal blocks among the stages. -/
def nBlocks (stages : List Stage) : Nat := stages.countP isFBlock

/-- The layer loop of `FractalNet.forward`: threads the running output, the
current `global_cols` (initially `None`), the sampling position `t`, and the
layer index `li`; returns the final output and the list of global-column
vectors passed to the blocks, in order. -/
def netRun (training consist deepest : Bool) (n B GB : Nat)
    (sample : Nat → Nat → Nat) (ld : Nat → Nat → Nat → Nat → Bool)
    (res : Nat → Nat → Nat → Nat) :
    List Stage → Tensor → Option (List Nat) → Nat → Nat → Tensor × List (List Nat)
  | [], out, _, _, _ => (out, [])
  | Stage.plain f :: rest, out, g, t, li =>
      netRun training consist deepest n B GB sample ld res rest (f out) g t (li + 1)
  | Stage.fblock D F :: rest, out, g, t, li =>
      let gp : Option (List Nat) × Nat :=
        if !consist || g.isNone then (some ((List.range GB).map (sample t)), t + 1)
        else (g, t)
      let out' := blockForward n (fun i => (countTable n).getD i 0) F
        (fun i outs => join training n B (ld li i) (res li i) (gp.1.getD []) outs)
        D (2 ^ (n - 1)) deepest out
      let r := netRun training consist deepest n B GB sample ld res rest out' gp.1 gp.2 (li + 1)
      (r.1, gp.1.getD [] :: r.2)

/-- `FractalNet.forward`: `GB` computed from the batch size and the global
drop-path fraction, `global_cols` starting as `None`. -/
def netForward (training consist deepest : Bool) (n B : Nat) (gfrac : ℚ)
    (sample : Nat → Nat → Nat) (ld : Nat → Nat → Nat → Nat → Bool)
    (res : Nat → Nat → Nat → Nat) (stages : List Stage) (x : Tensor) :
    Tensor × List (List Nat) :=
  netRun training consist deepest n B (netGB B gfrac) sample ld res stages x none 0 0

/-- With `consist_gdrop` and a vector already sampled, every later block
reuses that vector. -/
theorem netRun_used_some (training deepest : Bool) (n B GB : Nat)
    (sample : Nat → Nat → Nat) (ld : Nat → Nat → Nat → Nat → Bool)
    (res : Nat → Nat → Nat → Nat) :
    ∀ (stages : List Stage) (out : Tensor) (v : List Nat) (t li : Nat),
      (netRun training true deepest n B GB sample ld res stages out (some v) t li).2
        = List.replicate (nBlocks stages) v
  | [], out, v, t, li => rfl
  | Stage.plain f :: rest, out, v, t, li => by
      simp only [netRun]
      rw [netRun_used_some training deepest n B GB sample ld res rest (f out) v t (li + 1)]
      simp [nBlocks, isFBlock, List.countP_cons]
  | Stage.fblock D F :: rest, out, v, t, li => by
      have hcond : (!true || (some v : Option (List Nat)).isNone) = false := rfl
      simp only [netRun, hcond, Bool.false_eq_true, if_false, Option.getD_some]
      rw [netRun_used_some training deepest n B GB sample ld res rest _ v t (li + 1)]
      simp [nBlocks, isFBlock, List.countP_cons, List.replicate_succ]

/-- With `consist_gdrop` and nothing sampled yet, the first block samples the
vector at position `t` and every block uses it. -/
theorem netRun_used_none (training deepest : Bool) (n B GB : Nat)
    (sample : Nat → Nat → Nat) (ld : Nat → Nat → Nat → Nat → Bool)
    (res : Nat → Nat → Nat → Nat) :
    ∀ (stages : List Stage) (out : Tensor) (t li : Nat),
      (netRun training true deepest n B GB sample ld res stages out none t li).2
        = List.replicate (nBlocks stages) ((List.range GB).map (sample t))
  | [], out, t, li => rfl
  | Stage.plain f :: rest, out, t, li => by
      simp only [netRun]
      rw [netRun_used_none training deepest n B GB sample ld res rest (f out) t (li + 1)]
      simp [nBlocks, isFBlock, List.countP_cons]
  | Stage.fblock D F :: rest, out, t, li => by
      have hcond : (!true || (none : Option (List Nat)).isNone) = true := rfl
      simp only [netRun, hcond, if_true, Option.getD_some]
      rw [netRun_used_some training deepest n B GB sample ld res rest _
        ((List.range GB).map (sample t)) (t + 1) (li + 1)]
      simp [nBlocks, isFBlock, List.countP_cons, List.replicate_succ]

/-- Without `consist_gdrop`, every block samples a fresh vector, consuming
positions `t, t+1, ...` in order. -/
theorem netRun_used_fresh (training deepest : Bool) (n B GB : Nat)
    (sample : Nat → Nat → Nat) (ld : Nat → Nat → Nat → Nat → Bool)
    (res : Nat → Nat → Nat → Nat) :
    ∀ (stages : List Stage) (out : Tensor) (g : Option (List Nat)) (t li : Nat),
      (netRun training false deepest n B GB sample ld res stages out g t li).2
        = (List.range (nBlocks stages)).map
            (fun k => (List.range GB).map (sample (t + k)))
  | [], out, g, t, li => by simp [netRun, nBlocks, isFBlock]
  | Stage.plain f :: rest, out, g, t, li => by
      simp only [netRun]
      rw [netRun_used_fresh training deepest n B GB sample ld res rest (f out) g t (li + 1)]
      simp [nBlocks, isFBlock, List.countP_cons]
  | Stage.fblock D F :: rest, out, g, t, li => by
      have hcond : (!false || g.isNone) = true := rfl
      simp only [netRun, hcond, if_true, Option.getD_some]
      rw [netRun_used_fresh training deepest n B GB sample ld res rest _
        (some ((List.range GB).map (sample t))) (t + 1) (li + 1)]
      have hnb : nBlocks (Stage.fblock D F :: rest) = nBlocks rest + 1 := by
        simp [nBlocks, isFBlock, List.countP_cons]
      rw [hnb, List.range_succ_eq_map, List.map_cons, List.map_map, Nat.add_zero]
      congr 1
      apply List.map_congr_left
      intro k _
      simp only [Function.comp]
      have he : t + (k + 1) = t + 1 + k := by omega
      rw [← he]

/-- Claim C8: in every forward pass `GB = floor(B * gdrop_ratio)` (for the
non-negative drop fraction used by the code), each sampled GlobalColumnChoice
vector has length `GB`; with `consist_gdrop` one vector is sampled (at stream
position 0, before any block runs) and reused unchanged by every block, and
without it the `k`-th block uses the freshly sampled vector at position `k`. -/
theorem netForward_gdrop_policy (training deepest : Bool) (n B : Nat) (gfrac : ℚ)
    (sample : Nat → Nat → Nat) (ld : Nat → Nat → Nat → Nat → Bool)
    (res : Nat → Nat → Nat → Nat) (stages : List Stage) (x : Tensor)
    (hfrac : 0 ≤ gfrac) :
    ((netGB B gfrac : Int) = ⌊(B : ℚ) * gfrac⌋)
  ∧ (∀ consist : Bool,
      ∀ v ∈ (netForward training consist deepest n B gfrac sample ld res stages x).2,
        v.length = netGB B gfrac)
  ∧ ((netForward training true deepest n B gfrac sample ld res stages x).2
      = List.replicate (nBlocks stages) ((List.range (netGB B gfrac)).map (sample 0)))
  ∧ ((netForward training false deepest n B gfrac sample ld res stages x).2
      = (List.range (nBlocks stages)).map
          (fun k => (List.range (netGB B gfrac)).map (sample k))) := by
  have hq : 0 ≤ (B : ℚ) * gfrac := mul_nonneg (by positivity) hfrac
  have hGB : (netGB B gfrac : Int) = ⌊(B : ℚ) * gfrac⌋ := by
    unfold netGB pyInt
    rw [if_pos hq]
    exact Int.toNat_of_nonneg (Int.floor_nonneg.mpr hq)
  have htrue := netRun_used_none training deepest n B (netGB B gfrac)
    sample ld res stages x 0 0
  have hfalse := netRun_used_fresh training deepest n B (netGB B gfrac)
    sample ld res stages x none 0 0
  have hfalse' : (netForward training false deepest n B gfrac sample ld res stages x).2
      = (List.range (nBlocks stages)).map
          (fun k => (List.range (netGB B gfrac)).map (sample k)) := by
    unfold netForward
    rw [hfalse]
    apply List.map_congr_left
    intro k _
    rw [Nat.zero_add]
  refine ⟨hGB, ?_, htrue, hfalse'⟩
  intro consist v hv
  cases consist with
  | false =>
      rw [hfalse'] at hv
      rcases List.mem_map.mp hv with ⟨k, _, rfl⟩
      simp
  | true =>
      unfold netForward at hv
      rw [htrue] at hv
      rw [List.eq_of_mem_replicate hv]
      simp

/-- Claim C8 (witness): a concrete pass with `B = 4`, `gdrop_ratio = 1/2` and
one fractal block preceded by a plain layer. -/
theorem netForward_gdrop_policy_witness :
    ((netGB 4 (1/2) : Int) = ⌊(4 : ℚ) * (1/2)⌋)
  ∧ (∀ consist : Bool,
      ∀ v ∈ (netForward false consist false 2 4 (1/2) (fun _ _ => 0)
          (fun _ _ _ _ => false) (fun _ _ _ => 0)
          [Stage.plain id, Stage.fblock none (fun _ _ t => t)] (fun _ _ => 0)).2,
        v.length = netGB 4 (1/2))
  ∧ ((netForward false true false 2 4 (1/2) (fun _ _ => 0)
        (fun _ _ _ _ => false) (fun _ _ _ => 0)
        [Stage.plain id, Stage.fblock none (fun _ _ t => t)] (fun _ _ => 0)).2
      = List.replicate
          (nBlocks [Stage.plain id, Stage.fblock none (fun _ _ t => t)])
          ((List.range (netGB 4 (1/2))).map ((fun _ _ => 0) 0)))
  ∧ ((netForward false false false 2 4 (1/2) (fun _ _ => 0)
        (fun _ _ _ _ => false) (fun _ _ _ => 0)
        [Stage.plain id, Stage.fblock none (fun _ _ t => t)] (fun _ _ => 0)).2
      = (List.range (nBlocks [Stage.plain id, Stage.fblock none (fun _ _ t => t)])).map
          (fun k => (List.range (netGB 4 (1/2))).map ((fun _ _ => 0) k))) :=
  netForward_gdrop_policy false false 2 4 (1/2) (fun _ _ => 0)
    (fun _ _ _ _ => false) (fun _ _ _ => 0)
    [Stage.plain id, Stage.fblock none (fun _ _ t => t)] (fun _ _ => 0)
    (by norm_num)

/-- The inference-mode join ignores the mask streams and the global columns. -/
theorem join_false_eq (n B : Nat) (draw : Nat → Nat → Bool) (res : Nat → Nat)
    (gcols : List Nat) (outs : List Tensor) :
    join false n B draw res gcols outs = joinEval outs := rfl

/-- In inference mode the final output of the layer loop does not depend on
the random streams, the sampling position, the layer index, or the current
global-column vector. -/
theorem netRun_eval_fst (consist deepest : Bool) (n B GB : Nat)
    (s1 s2 : Nat → Nat → Nat) (ld1 ld2 : Nat → Nat → Nat → Nat → Bool)
    (res1 res2 : Nat → Nat → Nat → Nat) :
    ∀ (stages : List Stage) (out : Tensor) (g1 g2 : Option (List Nat))
      (t1 t2 li1 li2 : Nat),
      (netRun false consist deepest n B GB s1 ld1 res1 stages out g1 t1 li1).1
        = (netRun false consist deepest n B GB s2 ld2 res2 stages out g2 t2 li2).1
  | [], out, g1, g2, t1, t2, li1, li2 => rfl
  | Stage.plain f :: rest, out, g1, g2, t1, t2, li1, li2 =>
      netRun_eval_fst consist deepest n B GB s1 s2 ld1 ld2 res1 res2 rest (f out)
        g1 g2 t1 t2 (li1 + 1) (li2 + 1)
  | Stage.fblock D F :: rest, out, g1, g2, t1, t2, li1, li2 => by
      simp only [netRun, join_false_eq]
      exact netRun_eval_fst consist deepest n B GB s1 s2 ld1 ld2 res1 res2 rest
        (blockForward n (fun i => (countTable n).getD i 0) F
          (fun i outs => joinEval outs) D (2 ^ (n - 1)) deepest out)
        _ _ _ _ (li1 + 1) (li2 + 1)

/-- Claim C9: with the model in inference mode, `FractalNet.forward` is a
deterministic function of its input: two runs with entirely different random
streams (global-column sampling, local Bernoulli draws, resurrection picks)
produce identical outputs, since no drop mask is generated and the sampled
global columns are never consulted by the inference-mode join. -/
theorem netForward_eval_deterministic (consist deepest : Bool) (n B : Nat)
    (gfrac : ℚ) (stages : List Stage) (x : Tensor)
    (s1 s2 : Nat → Nat → Nat) (ld1 ld2 : Nat → Nat → Nat → Nat → Bool)
    (res1 res2 : Nat → Nat → Nat → Nat) :
    (netForward false consist deepest n B gfrac s1 ld1 res1 stages x).1
      = (netForward false consist deepest n B gfrac s2 ld2 res2 stages x).1 :=
  netRun_eval_fst consist deepest n B (netGB B gfrac) s1 s2 ld1 ld2 res1 res2
    stages x none none 0 0 0 0
